import Mathlib

/-!
Formal model of `bitcoinaddress/validation.py`: bitcoin/altcoin address
validation (base58-check and bech32 segwit).

Python byte strings are modelled as `List Nat` of byte values.  The module
targets the Python 2 string model: its `_long_to_bytes` / `_bytes_to_long`
fallbacks (reached via the `except AttributeError` branches), the
`bcbytes.startswith(chr(mb))` comparison and its own test-suite fix those
semantics.  Arbitrary-precision integers are `Nat`; machine-level bit
operations are kept as `>>>`, `<<<`, `&&&`, `^^^`, `|||` on `Nat`.
A raised exception that escapes a function is modelled by `none` in an
outer `Option` layer where the claims need it (the `decode` segwit
function); functions whose only failure is caught internally return plain
values.
-/

namespace BitcoinAddr

/-- Byte values of a literal ASCII string (Python 2 `str`). -/
def pyStr (s : String) : List Nat := s.toList.map Char.toNat

/-- `digits58` (validation.py line 10): bitcoin's base58 alphabet. -/
def digits58 : List Nat :=
  pyStr ("123456789ABCDEFGHJKLMNPQRSTUVWXYZabcdefghijkmnopqrstuvwxyz")

/-- `CHARSET` (line 11): the BECH32 charset. -/
def CHARSET : List Nat := pyStr ("qpzry9x8gf2tvdw0s3jn54khce6mua7l")

/-- Python 2 `str.lower()` on a byte: maps only `A`..`Z`. -/
def asciiLower (c : Nat) : Nat := if 65 ≤ c ∧ c ≤ 90 then c + 32 else c

/-- Python 2 `str.upper()` on a byte: maps only `a`..`z`. -/
def asciiUpper (c : Nat) : Nat := if 97 ≤ c ∧ c ≤ 122 then c - 32 else c

/-! ## Base58Codec -/

/-- Auxiliary for `_bytes_to_long`: `Σ v <<< (i*8)` over the list, the
index `i` starting at the first argument. -/
def btlAux : Nat → List Nat → Nat
  | _, [] => 0
  | i, v :: rest => (v <<< (i * 8)) + btlAux (i + 1) rest

/-- `_bytes_to_long(b, 'big')` (lines 14–24): `sum(v << i*8 for (i, v) in
enumerate(reversed(b)))`. -/
def bytes_to_long (b : List Nat) : Nat := btlAux 0 b.reverse

/-- `_long_to_bytes(n, length, 'big')` (lines 26–37):
`(n >> i*8) & 0xff` for `i` in `reversed(range(length))`.  High-order
bytes of `n` beyond `length` are silently dropped. -/
def long_to_bytes (n length : Nat) : List Nat :=
  (List.range length).reverse.map (fun i => (n >>> (i * 8)) &&& 0xff)

/-- `digits58.index(char)` wrapped as an option: `none` models the
`ValueError` raised on a character outside the alphabet (lines 47–51). -/
def b58index (c : Nat) : Option Nat :=
  if digits58.indexOf c < digits58.length then some (digits58.indexOf c) else none

/-- The accumulation loop of `decode_base58` (lines 45–51):
`n = n*58 + digits58.index(char)`. -/
def decode58Loop : Nat → List Nat → Option Nat
  | n, [] => some n
  | n, c :: rest =>
    match b58index c with
    | none => none
    | some d => decode58Loop (n * 58 + d) rest

/-- The base58 numeral value of a byte string, `none` on the `ValueError`. -/
def decode_base58_num (addr : List Nat) : Option Nat := decode58Loop 0 addr

/-- `decode_base58(bitcoin_address, length)` (lines 39–56): accumulate the
base58 numeral, then serialize it to exactly `length` big-endian bytes via
`_long_to_bytes` (the Python 2 path), truncating high-order bytes. -/
def decode_base58 (addr : List Nat) (length : Nat) : Option (List Nat) :=
  (decode_base58_num addr).map (fun n => long_to_bytes n length)

/-- The leading-zero counting loop of `encode_base58` (lines 61–67). -/
def countLeadZeros : List Nat → Nat
  | [] => 0
  | b :: rest => if b = 0 then countLeadZeros rest + 1 else 0

/-- Base58 digits of `n`, least significant first: the
`while n or rest: ... divmod(n, 58)` loop of `encode_base58`
(lines 73–77).  `fuel` bounds the iteration count; every caller supplies
fuel with `n < 58 ^ fuel`, so the loop never runs out early. -/
def b58digitsAux : Nat → Nat → List Nat
  | 0, _ => []
  | fuel + 1, n => if n = 0 then [] else n % 58 :: b58digitsAux fuel (n / 58)

/-- `encode_base58(bytestring)` (lines 58–78): count leading zero bytes,
take the big-endian value, emit base58 digits least-significant first,
reverse, and prepend one `'1'` (byte 49) per leading zero byte.  The digit
loop gets fuel `2*len+1`: for a byte string,
`bytes_to_long b < 256^len < 58^(2*len+1)`. -/
def encode_base58 (b : List Nat) : List Nat :=
  let zeros := countLeadZeros b
  let n := bytes_to_long b
  let digits := b58digitsAux (2 * b.length + 1) n
  List.replicate zeros 49 ++ (digits.map (fun d => digits58.getD d 0)).reverse

/-! ## SHA-256 (the `hashlib.sha256(x).digest()` primitive) -/

/-- Right rotation of a 32-bit word. -/
def rotr32 (x n : Nat) : Nat := ((x >>> n) ||| (x <<< (32 - n))) % 4294967296

/-- SHA-256 round constants. -/
def shaK : List Nat :=
  [1116352408, 1899447441, 3049323471, 3921009573, 961987163,
   1508970993, 2453635748, 2870763221, 3624381080, 310598401,
   607225278, 1426881987, 1925078388, 2162078206, 2614888103,
   3248222580, 3835390401, 4022224774, 264347078, 604807628,
   770255983, 1249150122, 1555081692, 1996064986, 2554220882,
   2821834349, 2952996808, 3210313671, 3336571891, 3584528711,
   113926993, 338241895, 666307205, 773529912, 1294757372,
   1396182291, 1695183700, 1986661051, 2177026350, 2456956037,
   2730485921, 2820302411, 3259730800, 3345764771, 3516065817,
   3600352804, 4094571909, 275423344, 430227734, 506948616,
   659060556, 883997877, 958139571, 1322822218, 1537002063,
   1747873779, 1955562222, 2024104815, 2227730452, 2361852424,
   2428436474, 2756734187, 3204031479, 3329325298]

/-- SHA-256 initial hash state. -/
def shaH0 : List Nat :=
  [1779033703, 3144134277, 1013904242, 2773480762,
   1359893119, 2600822924, 528734635, 1541459225]

/-- Big-endian 4-byte groups to 32-bit words. -/
def bytesToWords : List Nat → List Nat
  | a :: b :: c :: d :: rest =>
    ((a <<< 24) ||| (b <<< 16) ||| (c <<< 8) ||| d) :: bytesToWords rest
  | _ => []

/-- 32-bit words to big-endian bytes. -/
def wordsToBytes : List Nat → List Nat
  | [] => []
  | w :: rest =>
    ((w >>> 24) &&& 255) :: ((w >>> 16) &&& 255) :: ((w >>> 8) &&& 255) ::
      (w &&& 255) :: wordsToBytes rest

/-- Message-schedule sigma-0. -/
def shaS0 (x : Nat) : Nat := (rotr32 x 7) ^^^ (rotr32 x 18) ^^^ (x >>> 3)

/-- Message-schedule sigma-1. -/
def shaS1 (x : Nat) : Nat := (rotr32 x 17) ^^^ (rotr32 x 19) ^^^ (x >>> 10)

/-- One message-schedule extension step. -/
def shaExtendStep (w : List Nat) : List Nat :=
  let n := w.length
  w ++ [(shaS1 (w.getD (n - 2) 0) + w.getD (n - 7) 0 + shaS0 (w.getD (n - 15) 0)
        + w.getD (n - 16) 0) % 4294967296]

/-- Extend 16 schedule words to 64. -/
def shaSchedule (w16 : List Nat) : List Nat :=
  (List.range 48).foldl (fun w _ => shaExtendStep w) w16

/-- One SHA-256 compression round on the 8-word state. -/
def shaRound (st : List Nat) (kw : Nat × Nat) : List Nat :=
  match st with
  | [a, b, c, d, e, f, g, h] =>
    let e1 := (rotr32 e 6) ^^^ (rotr32 e 11) ^^^ (rotr32 e 25)
    let ch := (e &&& f) ^^^ ((4294967295 ^^^ e) &&& g)
    let t1 := (h + e1 + ch + kw.1 + kw.2) % 4294967296
    let a0 := (rotr32 a 2) ^^^ (rotr32 a 13) ^^^ (rotr32 a 22)
    let mj := (a &&& b) ^^^ (a &&& c) ^^^ (b &&& c)
    let t2 := (a0 + mj) % 4294967296
    [(t1 + t2) % 4294967296, a, b, c, (d + t1) % 4294967296, e, f, g]
  | other => other

/-- Compress one 64-byte block into the hash state. -/
def shaCompress (h : List Nat) (block : List Nat) : List Nat :=
  let w := shaSchedule (bytesToWords block)
  let st := (shaK.zip w).foldl shaRound h
  (h.zip st).map (fun p => (p.1 + p.2) % 4294967296)

/-- Fold the compression over the 64-byte blocks of the padded message;
`fuel` is the block count. -/
def shaBlocks : Nat → List Nat → List Nat → List Nat
  | _, h, [] => h
  | 0, h, _ => h
  | fuel + 1, h, msg => shaBlocks fuel (shaCompress h (msg.take 64)) (msg.drop 64)

/-- SHA-256 padding: `0x80`, zeros to 56 mod 64, then the 8-byte big-endian
bit length. -/
def shaPad (msg : List Nat) : List Nat :=
  let l := msg.length
  msg ++ [128] ++ List.replicate ((119 - l % 64) % 64) 0
      ++ (List.range 8).reverse.map (fun i => ((8 * l) >>> (8 * i)) &&& 255)

/-- SHA-256 digest of a byte list. -/
def sha256 (msg : List Nat) : List Nat :=
  let padded := shaPad msg
  wordsToBytes (shaBlocks (padded.length / 64) shaH0 padded)

/-! ## validate_base58 -/

/-- `validate_base58(bitcoin_address, magicbyte)` (lines 101–122): length
bounds 27..35, base58 decode into 25 bytes, magic-byte check on the first
byte (`bcbytes.startswith(chr(int(mb)))`, a one-byte prefix on the
Python 2 path), double-SHA-256 checksum comparison, and the canonical-form
re-encoding check. -/
def validate_base58 (addr : List Nat) (magicbyte : List Nat) : Bool :=
  if addr.length < 27 ∨ 35 < addr.length then false
  else
    match decode_base58 addr 25 with
    | none => false
    | some bcbytes =>
      if magicbyte.any (fun mb => [mb].isPrefixOf bcbytes) then
        if bcbytes.drop (bcbytes.length - 4)
            ≠ (sha256 (sha256 (bcbytes.take (bcbytes.length - 4)))).take 4 then
          false
        else addr == encode_base58 bcbytes
      else false

/-! ## Bech32Codec (lines 125–203, from the BIP173 reference code) -/

/-- The generator constants of `bech32_polymod` (line 133). -/
def generator : List Nat := [0x3b6a57b2, 0x26508e6d, 0x1ea119fa, 0x3d4233dd, 0x2a1462b3]

/-- One iteration of the `bech32_polymod` loop (lines 135–139). -/
def polymodStep (chk value : Nat) : Nat :=
  let top := chk >>> 25
  let chk2 := (((chk &&& 0x1ffffff) <<< 5) ^^^ value)
  (List.range 5).foldl
    (fun c i => if (top >>> i) &&& 1 = 1 then c ^^^ generator.getD i 0 else c) chk2

/-- `bech32_polymod(values)` (lines 131–140). -/
def bech32_polymod (values : List Nat) : Nat := values.foldl polymodStep 1

/-- `bech32_hrp_expand(hrp)` (lines 143–145):
`[ord(x) >> 5] + [0] + [ord(x) & 31]`. -/
def bech32_hrp_expand (hrp : List Nat) : List Nat :=
  hrp.map (fun x => x >>> 5) ++ [0] ++ hrp.map (fun x => x &&& 31)

/-- `bech32_verify_checksum(hrp, data)` (lines 148–150). -/
def bech32_verify_checksum (hrp data : List Nat) : Bool :=
  bech32_polymod (bech32_hrp_expand hrp ++ data) == 1

/-- `bech.rfind('1')` (line 158): index of the last `'1'` (byte 49), or
`none` for Python's `-1`; the caller's `pos < 1` test treats `-1` and `0`
alike. -/
def rfind1 (l : List Nat) : Option Nat :=
  if l.contains 49 then some (l.length - 1 - l.reverse.indexOf 49) else none

/-- The part of `bech32_decode` after lower-casing (lines 158–167),
applied to the lowered string. -/
def bech32_decodeBody (b : List Nat) : Option (List Nat × List Nat) :=
  match rfind1 b with
  | none => none
  | some pos =>
    if pos < 1 ∨ pos + 7 > b.length ∨ b.length > 90 then none
    else if ¬ (b.drop (pos + 1)).all (fun x => CHARSET.contains x) then none
    else
      let hrp := b.take pos
      let data := (b.drop (pos + 1)).map (fun x => CHARSET.indexOf x)
      if ¬ bech32_verify_checksum hrp data then none
      else some (hrp, data.take (data.length - 6))

/-- `bech32_decode(bech)` (lines 152–167): printable-range check, the
mixed-case rejection, then the body on the lowered string.  `none` is the
`(None, None)` return. -/
def bech32_decode (bech : List Nat) : Option (List Nat × List Nat) :=
  if bech.any (fun x => x < 33 ∨ 126 < x)
      ∨ (bech.map asciiLower ≠ bech ∧ bech.map asciiUpper ≠ bech) then none
  else bech32_decodeBody (bech.map asciiLower)

/-- The `while bits >= tobits` drain loop of `convertbits` (lines
181–183), appending `(acc >> bits) & maxv` groups.  `fuel` bounds the
iterations; every call passes `fuel = bits`, enough because each
iteration removes `tobits ≥ 1` from `bits`.  (For `tobits = 0` the Python
loop would not terminate; the program only uses `tobits = 8`.) -/
def drainAux (tobits maxv : Nat) : Nat → Nat → Nat → List Nat → Nat × List Nat
  | 0, _, bits, ret => (bits, ret)
  | fuel + 1, acc, bits, ret =>
    if 0 < tobits ∧ tobits ≤ bits then
      drainAux tobits maxv fuel acc (bits - tobits)
        (ret ++ [(acc >>> (bits - tobits)) &&& maxv])
    else (bits, ret)

/-- The `for value in data` loop of `convertbits` (lines 176–183),
carrying `(acc, bits, ret)`; `none` is the early `return None` on a value
with bits above `frombits` (`value < 0` cannot occur for `Nat` data). -/
def cbLoop (frombits tobits maxv maxacc : Nat) :
    Nat → Nat → List Nat → List Nat → Option (Nat × Nat × List Nat)
  | acc, bits, ret, [] => some (acc, bits, ret)
  | acc, bits, ret, v :: rest =>
    if v >>> frombits ≠ 0 then none
    else
      let acc2 := ((acc <<< frombits) ||| v) &&& maxacc
      let p := drainAux tobits maxv (bits + frombits) acc2 (bits + frombits) ret
      cbLoop frombits tobits maxv maxacc acc2 p.1 p.2 rest

/-- `convertbits(data, frombits, tobits, pad)` (lines 169–189). -/
def convertbits (data : List Nat) (frombits tobits : Nat) (pad : Bool) :
    Option (List Nat) :=
  let maxv := (1 <<< tobits) - 1
  let maxacc := (1 <<< (frombits + tobits - 1)) - 1
  match cbLoop frombits tobits maxv maxacc 0 0 [] data with
  | none => none
  | some (acc, bits, ret) =>
    if pad then
      if bits ≠ 0 then some (ret ++ [(acc <<< (tobits - bits)) &&& maxv])
      else some ret
    else if frombits ≤ bits ∨ ((acc <<< (tobits - bits)) &&& maxv) ≠ 0 then none
    else some ret

/-- `decode(hrp, addr)` (lines 191–203).  Result layering: the outer
`Option` is `none` only for a raised `IndexError` on `data[0]` (never
happens, see `validate_never_fails`); `some none` is the `(None, None)`
return; `some (some (v, prog))` is a successful decode. -/
def decode (hrp addr : List Nat) : Option (Option (Nat × List Nat)) :=
  match bech32_decode addr with
  | none => some none
  | some (hrpgot, data) =>
    if hrpgot ≠ hrp then some none
    else
      match convertbits (data.drop 1) 5 8 false with
      | none => some none
      | some decoded =>
        if decoded.length < 2 ∨ 40 < decoded.length then some none
        else
          match data[0]? with
          | none => none
          | some d0 =>
            if 16 < d0 then some none
            else if d0 = 0 ∧ decoded.length ≠ 20 ∧ decoded.length ≠ 32 then some none
            else some (some (d0, decoded))

/-- `validate_bech32(bitcoin_address, hrp)` (lines 128–129):
`decode(hrp, addr)[0] is not None`; the outer `Option` propagates the
(impossible) error case. -/
def validate_bech32 (addr hrp : List Nat) : Option Bool :=
  (decode hrp addr).map (fun r => r.isSome)

/-! ## AddressValidator -/

/-- `validate(bitcoin_address, testnet=False)` (lines 80–99): pick the
network parameters, dispatch on the case-lowered two-byte prefix. -/
def validate (addr : List Nat) (testnet : Bool) : Option Bool :=
  let magicbyte : List Nat := if testnet then [111, 196] else [0, 5]
  let bech32_hrp : List Nat := if testnet then pyStr ("tb") else pyStr ("bc")
  if (addr.take 2).map asciiLower = bech32_hrp then validate_bech32 addr bech32_hrp
  else some (validate_base58 addr magicbyte)

/-! ## Derived definitions used to state the claims -/

/-- Little-endian base-256 value of a byte list (head = least significant
byte); `bytes_to_long b = valLE b.reverse`. -/
def valLE : List Nat → Nat
  | [] => 0
  | v :: rest => v + 256 * valLE rest

/-- The `convertbits` accumulation loop without the early `return None`
(used by the spec-side characterization `convertbitsSpec`). -/
def cbLoopT (frombits tobits maxv maxacc : Nat) :
    Nat → Nat → List Nat → List Nat → Nat × Nat × List Nat
  | acc, bits, ret, [] => (acc, bits, ret)
  | acc, bits, ret, v :: rest =>
    let acc2 := ((acc <<< frombits) ||| v) &&& maxacc
    let p := drainAux tobits maxv (bits + frombits) acc2 (bits + frombits) ret
    cbLoopT frombits tobits maxv maxacc acc2 p.1 p.2 rest

/-- Final `(acc, bits, ret)` of the `convertbits` accumulation over the
whole input. -/
def cbFinal (data : List Nat) (frombits tobits : Nat) : Nat × Nat × List Nat :=
  cbLoopT frombits tobits ((1 <<< tobits) - 1) ((1 <<< (frombits + tobits - 1)) - 1)
    0 0 [] data

/-- Spec-side restatement of `convertbits` (the wording of claim C8): fail
exactly when some input value does not fit in `frombits` bits, or when
`pad` is false and the leftover bits are ≥ `frombits` or non-zero after
left-shifting into a `tobits` group; otherwise return the regrouped
sequence, with a zero-padded final group appended when `pad` is true and
leftover bits remain. -/
def convertbitsSpec (data : List Nat) (frombits tobits : Nat) (pad : Bool) :
    Option (List Nat) :=
  if data.any (fun v => v >>> frombits ≠ 0) then none
  else
    let maxv := (1 <<< tobits) - 1
    let r := cbFinal data frombits tobits
    if pad then
      if r.2.1 ≠ 0 then some (r.2.2 ++ [(r.1 <<< (tobits - r.2.1)) &&& maxv])
      else some r.2.2
    else if frombits ≤ r.2.1 ∨ ((r.1 <<< (tobits - r.2.1)) &&& maxv) ≠ 0 then none
    else some r.2.2

/-- The 20-byte witness program of the BIP173 mainnet P2WPKH test vector
`bc1qw508d6qejxtdg4y5r3zarvary0c5xw7kv8f3t4`. -/
def segwitProg1 : List Nat :=
  [117, 30, 118, 232, 25, 145, 150, 212, 84, 148, 28, 69, 209, 179, 163, 35,
   241, 67, 59, 214]

/-! ## Lemmas: base-256 serialization -/

theorem valLE_lt (L : List Nat) (h : ∀ x ∈ L, x < 256) : valLE L < 256 ^ L.length := by
  induction L with
  | nil => simp [valLE]
  | cons v rest ih =>
    have hv : v < 256 := h v (by simp)
    have hr : valLE rest < 256 ^ rest.length := ih (fun x hx => h x (by simp [hx]))
    simp only [valLE, List.length_cons, pow_succ]
    omega

theorem valLE_snoc (L : List Nat) (v : Nat) :
    valLE (L ++ [v]) = valLE L + 256 ^ L.length * v := by
  induction L with
  | nil => simp [valLE]
  | cons a t ih =>
    show valLE (a :: (t ++ [v])) = _
    simp only [valLE, ih, List.length_cons, pow_succ]
    ring

theorem btlAux_eq (L : List Nat) : ∀ i, btlAux i L = 256 ^ i * valLE L := by
  induction L with
  | nil => intro i; simp [btlAux, valLE]
  | cons v rest ih =>
    intro i
    have h28 : (2 : Nat) ^ (i * 8) = 256 ^ i := by
      rw [Nat.mul_comm i 8, Nat.pow_mul]
    simp only [btlAux, valLE, ih, Nat.shiftLeft_eq, h28, pow_succ]
    ring

theorem bytes_to_long_eq (b : List Nat) : bytes_to_long b = valLE b.reverse := by
  simp [bytes_to_long, btlAux_eq]

theorem byte_extract (n k : Nat) : (n >>> (k * 8)) &&& 0xff = n / 256 ^ k % 256 := by
  have h1 : n >>> (k * 8) = n / 256 ^ k := by
    rw [Nat.shiftRight_eq_div_pow, Nat.mul_comm k 8, Nat.pow_mul]
  have h2 := Nat.and_pow_two_sub_one_eq_mod (n / 256 ^ k) 8
  norm_num at h2
  rw [h1]
  exact h2

theorem long_to_bytes_length (n len : Nat) : (long_to_bytes n len).length = len := by
  simp [long_to_bytes]

theorem long_to_bytes_succ (n len : Nat) :
    long_to_bytes n (len + 1) = (n / 256 ^ len % 256) :: long_to_bytes n len := by
  have := byte_extract n len
  simp only [long_to_bytes, List.range_succ, List.reverse_append, List.reverse_cons,
    List.reverse_nil, List.nil_append, List.cons_append, List.map_cons, this]

theorem long_to_bytes_mod (n len : Nat) :
    long_to_bytes n len = long_to_bytes (n % 256 ^ len) len := by
  simp only [long_to_bytes]
  apply List.map_congr_left
  intro i hi
  have hilt : i < len := by
    rw [List.mem_reverse, List.mem_range] at hi
    exact hi
  rw [byte_extract, byte_extract]
  have hsplit : (256 : Nat) ^ len = 256 ^ i * 256 ^ (len - i) := by
    rw [← pow_add]
    congr 1
    omega
  rw [hsplit, Nat.mod_mul_right_div_self]
  have hdvd : (256 : Nat) ∣ 256 ^ (len - i) := dvd_pow_self 256 (by omega)
  rw [Nat.mod_mod_of_dvd _ hdvd]

theorem long_to_bytes_valLE (b : List Nat) (hb : ∀ x ∈ b, x < 256) :
    long_to_bytes (valLE b.reverse) b.length = b := by
  induction b with
  | nil => simp [long_to_bytes]
  | cons v rest ih =>
    have hv : v < 256 := hb v (by simp)
    have hrest : ∀ x ∈ rest, x < 256 := fun x hx => hb x (by simp [hx])
    have hw : valLE rest.reverse < 256 ^ rest.length := by
      have := valLE_lt rest.reverse
        (fun x hx => hrest x (List.mem_reverse.mp hx))
      rwa [List.length_reverse] at this
    set w := valLE rest.reverse with hwdef
    have hN : valLE ((v :: rest).reverse) = w + 256 ^ rest.length * v := by
      rw [List.reverse_cons, valLE_snoc, List.length_reverse]
    rw [hN, List.length_cons, long_to_bytes_succ]
    have hhead : (w + 256 ^ rest.length * v) / 256 ^ rest.length % 256 = v := by
      rw [Nat.add_mul_div_left _ _ (Nat.pos_pow_of_pos _ (by norm_num)),
        Nat.div_eq_of_lt hw]
      simpa using Nat.mod_eq_of_lt hv
    have htail : long_to_bytes (w + 256 ^ rest.length * v) rest.length = rest := by
      rw [long_to_bytes_mod, Nat.add_mul_mod_self_left, Nat.mod_eq_of_lt hw]
      exact ih hrest
    rw [hhead, htail]

theorem valLE_long_to_bytes (n len : Nat) :
    valLE (long_to_bytes n len).reverse = n % 256 ^ len := by
  induction len with
  | zero => simp [long_to_bytes, valLE, Nat.mod_one]
  | succ k ih =>
    rw [long_to_bytes_succ, List.reverse_cons, valLE_snoc, ih,
      List.length_reverse, long_to_bytes_length]
    exact Nat.mod_pow_succ.symm

/-! ## Lemmas: base58 digits -/

theorem b58digitsAux_lt (fuel : Nat) : ∀ n d, d ∈ b58digitsAux fuel n → d < 58 := by
  induction fuel with
  | zero => intro n d hd; simp [b58digitsAux] at hd
  | succ f ih =>
    intro n d hd
    by_cases hn : n = 0
    · simp [b58digitsAux, hn] at hd
    · simp only [b58digitsAux, if_neg hn, List.mem_cons] at hd
      rcases hd with h | h
      · subst h; exact Nat.mod_lt _ (by norm_num)
      · exact ih _ _ h

theorem b58digitsAux_foldl (fuel : Nat) :
    ∀ n a, n < 58 ^ fuel →
      (b58digitsAux fuel n).reverse.foldl (fun x d => x * 58 + d) a
        = a * 58 ^ (b58digitsAux fuel n).length + n := by
  induction fuel with
  | zero =>
    intro n a hn
    have hn0 : n = 0 := by simpa using hn
    simp [b58digitsAux, hn0]
  | succ f ih =>
    intro n a hn
    by_cases hn0 : n = 0
    · simp [b58digitsAux, hn0]
    · simp only [b58digitsAux, if_neg hn0, List.reverse_cons, List.foldl_append,
        List.length_cons]
      have hdiv : n / 58 < 58 ^ f := by
        apply Nat.div_lt_of_lt_mul
        rw [← pow_succ']
        exact hn
      rw [ih (n / 58) a hdiv]
      simp only [List.foldl_cons, List.foldl_nil]
      have hmod := Nat.div_add_mod n 58
      rw [pow_succ, ← Nat.mul_assoc]
      omega

theorem b58index_getD (d : Nat) (hd : d < 58) : b58index (digits58.getD d 0) = some d := by
  revert hd
  revert d
  decide

theorem decode58Loop_digits (ds : List Nat) :
    ∀ a, (∀ d ∈ ds, d < 58) →
      decode58Loop a (ds.map (fun d => digits58.getD d 0))
        = some (ds.foldl (fun x d => x * 58 + d) a) := by
  induction ds with
  | nil => intro a _; simp [decode58Loop]
  | cons d t ih =>
    intro a h
    have hd : d < 58 := h d (by simp)
    simp only [List.map_cons, decode58Loop, b58index_getD d hd, List.foldl_cons]
    exact ih (a * 58 + d) (fun x hx => h x (by simp [hx]))

theorem decode58Loop_replicate49 (z : Nat) (rest : List Nat) :
    decode58Loop 0 (List.replicate z 49 ++ rest) = decode58Loop 0 rest := by
  induction z with
  | zero => simp
  | succ k ih =>
    have h49 : b58index 49 = some 0 := by decide
    simp only [List.replicate_succ, List.cons_append, decode58Loop, h49]
    simpa using ih

theorem countLeadZeros_replicate (k : Nat) :
    countLeadZeros (List.replicate k 0) = k := by
  induction k with
  | zero => simp [countLeadZeros]
  | succ m ih => simp [List.replicate_succ, countLeadZeros, ih]

theorem valLE_replicate_zero (k : Nat) : valLE (List.replicate k 0) = 0 := by
  induction k with
  | zero => simp [valLE]
  | succ m ih => simp [List.replicate_succ, valLE, ih]

theorem encode_base58_eq (b : List Nat) :
    encode_base58 b = List.replicate (countLeadZeros b) 49
      ++ (b58digitsAux (2 * b.length + 1) (bytes_to_long b)).reverse.map
          (fun d => digits58.getD d 0) := by
  simp [encode_base58, List.map_reverse]

theorem pow256_lt_pow58 (len : Nat) : 256 ^ len < 58 ^ (2 * len + 1) := by
  induction len with
  | zero => norm_num
  | succ k ih =>
    have h58 : (0 : Nat) < 58 ^ (2 * k + 1) := Nat.pos_pow_of_pos _ (by norm_num)
    have hstep : 256 ^ (k + 1) < 58 ^ (2 * k + 1) * (58 * 58) := by
      rw [pow_succ]
      nlinarith
    have h2 : (58 : Nat) ^ (2 * (k + 1) + 1) = 58 ^ (2 * k + 1) * (58 * 58) := by
      rw [show 2 * (k + 1) + 1 = (2 * k + 1) + 2 from by ring, pow_add]
      norm_num
    rw [h2]
    exact hstep

theorem bytes_to_long_lt (b : List Nat) (hb : ∀ x ∈ b, x < 256) :
    bytes_to_long b < 256 ^ b.length := by
  rw [bytes_to_long_eq]
  have := valLE_lt b.reverse (fun x hx => hb x (List.mem_reverse.mp hx))
  rwa [List.length_reverse] at this

/-- Decoding the base58 numeral of `encode_base58 b` recovers the
big-endian value of `b`. -/
theorem decode_base58_num_encode (b : List Nat) (hb : ∀ x ∈ b, x < 256) :
    decode_base58_num (encode_base58 b) = some (bytes_to_long b) := by
  have hn : bytes_to_long b < 58 ^ (2 * b.length + 1) :=
    lt_trans (bytes_to_long_lt b hb) (pow256_lt_pow58 _)
  rw [encode_base58_eq]
  show decode58Loop 0 _ = _
  rw [decode58Loop_replicate49,
    decode58Loop_digits _ 0
      (fun d hd => b58digitsAux_lt _ _ _ (List.mem_reverse.mp hd)),
    b58digitsAux_foldl _ _ 0 hn]
  simp

/-- C3: for every byte sequence `b` of length 25, decode after encode at
fixed width 25 is the identity. -/
theorem decode_encode_roundtrip (b : List Nat) (hlen : b.length = 25)
    (hb : ∀ x ∈ b, x < 256) :
    decode_base58 (encode_base58 b) 25 = some b := by
  simp only [decode_base58, decode_base58_num_encode b hb, Option.map_some']
  rw [bytes_to_long_eq, ← hlen, long_to_bytes_valLE b hb]

/-- Witness for `decode_encode_roundtrip` at the all-zero 25-byte string. -/
theorem decode_encode_roundtrip_witness :
    (List.replicate 25 0).length = 25
      ∧ (∀ x ∈ List.replicate 25 0, x < 256)
      ∧ decode_base58 (encode_base58 (List.replicate 25 0)) 25
          = some (List.replicate 25 0) :=
  ⟨by decide, by decide,
    decode_encode_roundtrip (List.replicate 25 0) (by decide) (by decide)⟩

/-- C2: when the accumulated base58 integer needs more than `len` bytes,
`decode_base58` still returns the fixed-width serialization, whose value
is the integer's low-order `len` bytes (`n % 256 ^ len`): the high-order
bytes are silently dropped, no error is signalled. -/
theorem decode_base58_truncation (cs : List Nat) (len n : Nat)
    (hnum : decode_base58_num cs = some n) (_hbig : 256 ^ len ≤ n) :
    decode_base58 cs len = some (long_to_bytes n len)
      ∧ (long_to_bytes n len).length = len
      ∧ bytes_to_long (long_to_bytes n len) = n % 256 ^ len := by
  refine ⟨by simp [decode_base58, hnum], long_to_bytes_length n len, ?_⟩
  rw [bytes_to_long_eq, valLE_long_to_bytes]

/-- Witness for `decode_base58_truncation`: the string `"zz"` has value
3363 ≥ 256, decoded at width 1. -/
theorem decode_base58_truncation_witness :
    decode_base58 (pyStr ("zz")) 1 = some (long_to_bytes 3363 1)
      ∧ (long_to_bytes 3363 1).length = 1
      ∧ bytes_to_long (long_to_bytes 3363 1) = 3363 % 256 ^ 1 :=
  decode_base58_truncation (pyStr ("zz")) 1 3363 (by decide) (by decide)

/-- C9: `encode_base58` maps `k` zero bytes to `k` copies of `'1'`
(byte 49); for `k = 0`, the empty byte string maps to the empty string. -/
theorem encode_base58_replicate_zero (k : Nat) :
    encode_base58 (List.replicate k 0) = List.replicate k 49 := by
  rw [encode_base58_eq, countLeadZeros_replicate]
  have h0 : bytes_to_long (List.replicate k 0) = 0 := by
    rw [bytes_to_long_eq, List.reverse_replicate, valLE_replicate_zero]
  rw [h0]
  have hdig : b58digitsAux (2 * (List.replicate k 0).length + 1) 0 = [] := by
    simp [b58digitsAux]
  rw [hdig]
  simp

/-! ## Lemmas: segwit decode -/

theorem convertbits_nil : convertbits ([] : List Nat) 5 8 false = some [] := by decide

/-- The segwit `decode` never raises: the only possible `IndexError` site,
`data[0]`, is guarded by the repacked-length check, which rejects any
input whose data part is empty before the index is read. -/
theorem decode_isSome (hrp addr : List Nat) : (decode hrp addr).isSome = true := by
  unfold decode
  cases hbd : bech32_decode addr with
  | none => simp
  | some pr =>
    obtain ⟨h2, data⟩ := pr
    dsimp only
    by_cases hne : h2 ≠ hrp
    · simp [hne]
    · rw [if_neg hne]
      cases data with
      | nil => simp [convertbits_nil]
      | cons d rest =>
        simp only [List.drop_succ_cons, List.drop_zero, List.getElem?_cons_zero]
        cases hcv : convertbits rest 5 8 false with
        | none => simp
        | some decoded =>
          dsimp only
          split
          · simp
          · split
            · simp
            · split <;> simp

/-- C1: `validate` terminates with a boolean for every input string and
both network settings; no exception propagates (on the Python 2 path
fixed by the module's fallbacks, `decode_base58` truncates instead of
overflowing and the magic-byte comparison is well-typed, and the segwit
`decode` never reads `data[0]` out of range). -/
theorem validate_never_fails (addr : List Nat) (testnet : Bool) :
    (validate addr testnet).isSome = true := by
  unfold validate
  cases testnet <;> simp only [Bool.false_eq_true, if_false, if_true] <;> split
  · obtain ⟨r, hr⟩ := Option.isSome_iff_exists.mp (decode_isSome (pyStr ("bc")) addr)
    simp [validate_bech32, hr]
  · simp
  · obtain ⟨r, hr⟩ := Option.isSome_iff_exists.mp (decode_isSome (pyStr ("tb")) addr)
    simp [validate_bech32, hr]
  · simp

/-- C10: when `bech32_decode` succeeds with an empty data part (only the
6 checksum symbols after the separator), `decode` returns the
`(None, None)` sentinel — the repacked-length check (`len < 2`) fires
before `data[0]` would be read, so no out-of-range access happens (the
result is `some none`, not the error value `none`). -/
theorem decode_empty_data (hrp addr h2 : List Nat)
    (h : bech32_decode addr = some (h2, [])) :
    decode hrp addr = some none := by
  unfold decode
  rw [h]
  by_cases hne : h2 ≠ hrp
  · simp [hne]
  · simp [hne, convertbits_nil]

/-- Witness for `decode_empty_data`: the BIP173 vector `"a12uel5l"` is a
valid bech32 string whose data part is empty. -/
theorem decode_empty_data_witness :
    decode (pyStr ("bc")) (pyStr ("a12uel5l")) = some none :=
  decode_empty_data (pyStr ("bc")) (pyStr ("a12uel5l")) (pyStr ("a")) (by decide)

/-- C6: whenever the segwit `decode` succeeds, the witness version is at
most 16, the program length lies in 2..40, and a version-0 program is 20
or 32 bytes long; inputs violating any of these bounds get the
`(None, None)` sentinel instead (and `validate` then returns false). -/
theorem decode_segwit_bounds (hrp addr : List Nat) (v : Nat) (prog : List Nat)
    (h : decode hrp addr = some (some (v, prog))) :
    v ≤ 16 ∧ 2 ≤ prog.length ∧ prog.length ≤ 40
      ∧ (v = 0 → prog.length = 20 ∨ prog.length = 32) := by
  unfold decode at h
  cases hbd : bech32_decode addr with
  | none => rw [hbd] at h; simp at h
  | some pr =>
    obtain ⟨h2, data⟩ := pr
    rw [hbd] at h
    dsimp only at h
    by_cases hne : h2 ≠ hrp
    · rw [if_pos hne] at h; simp at h
    · rw [if_neg hne] at h
      cases hcv : convertbits (data.drop 1) 5 8 false with
      | none => rw [hcv] at h; simp at h
      | some decoded =>
        rw [hcv] at h
        dsimp only at h
        by_cases hlen : decoded.length < 2 ∨ 40 < decoded.length
        · rw [if_pos hlen] at h; simp at h
        · rw [if_neg hlen] at h
          cases hd0 : data[0]? with
          | none => rw [hd0] at h; simp at h
          | some d0 =>
            rw [hd0] at h
            dsimp only at h
            by_cases hv16 : 16 < d0
            · rw [if_pos hv16] at h; simp at h
            · rw [if_neg hv16] at h
              by_cases hv0 : d0 = 0 ∧ decoded.length ≠ 20 ∧ decoded.length ≠ 32
              · rw [if_pos hv0] at h; simp at h
              · rw [if_neg hv0] at h
                simp only [Option.some.injEq, Prod.mk.injEq] at h
                obtain ⟨hv, hp⟩ := h
                subst hv
                subst hp
                push_neg at hlen
                refine ⟨by omega, by omega, by omega, fun h0 => ?_⟩
                tauto

set_option maxRecDepth 10000 in
/-- Witness for `decode_segwit_bounds`: `decode` succeeds on the BIP173
mainnet P2WPKH vector with version 0 and a 20-byte program. -/
theorem decode_segwit_bounds_witness :
    0 ≤ 16 ∧ 2 ≤ segwitProg1.length ∧ segwitProg1.length ≤ 40
      ∧ (0 = 0 → segwitProg1.length = 20 ∨ segwitProg1.length = 32) :=
  decode_segwit_bounds (pyStr ("bc"))
    (pyStr ("bc1qw508d6qejxtdg4y5r3zarvary0c5xw7kv8f3t4")) 0 segwitProg1
    (by decide)

set_option maxRecDepth 10000 in
/-- C4: the mainnet address `1AGNa15ZQXAZUgFiqJ2i7Z2DPU2J6hW62i`
validates under the default network. -/
theorem validate_mainnet_example :
    validate (pyStr ("1AGNa15ZQXAZUgFiqJ2i7Z2DPU2J6hW62i")) false = some true := by
  decide

set_option maxRecDepth 10000 in
/-- C5: an address whose 25-byte decoded payload leads with a byte outside
the selected network's magic-byte set is rejected, regardless of its
checksum; concretely `mpc1rKeaMSCuQnJevMViLuq8uWjHwgdjiV` (leading
payload byte 111) validates under testnet (`{111, 196}`) and is rejected
under mainnet (`{0, 5}`). -/
theorem magic_byte_gating :
    (∀ (addr magicbyte bc : List Nat) (h0 : Nat),
        decode_base58 addr 25 = some bc → bc.head? = some h0 →
        h0 ∉ magicbyte → validate_base58 addr magicbyte = false)
    ∧ validate (pyStr ("mpc1rKeaMSCuQnJevMViLuq8uWjHwgdjiV")) true = some true
    ∧ validate (pyStr ("mpc1rKeaMSCuQnJevMViLuq8uWjHwgdjiV")) false = some false := by
  refine ⟨?_, by decide, by decide⟩
  intro addr magicbyte bc h0 hdec hhead hnotin
  unfold validate_base58
  by_cases hl : addr.length < 27 ∨ 35 < addr.length
  · rw [if_pos hl]
  · rw [if_neg hl, hdec]
    dsimp only
    have hany : magicbyte.any (fun mb => [mb].isPrefixOf bc) = false := by
      rw [List.any_eq_false]
      intro mb hmb
      cases bc with
      | nil => simp at hhead
      | cons b0 t =>
        simp only [List.head?_cons, Option.some.injEq] at hhead
        simp only [List.isPrefixOf_cons₂, List.isPrefixOf, Bool.and_true,
          beq_iff_eq]
        intro hmb0
        exact hnotin (by rw [hmb0, hhead] at hmb; exact hmb)
    simp [hany]

set_option maxRecDepth 10000 in
/-- Witness for `magic_byte_gating`: the testnet address decodes to a
payload with leading byte 111, which mainnet's `{0, 5}` rejects. -/
theorem magic_byte_gating_witness :
    validate_base58 (pyStr ("mpc1rKeaMSCuQnJevMViLuq8uWjHwgdjiV")) [0, 5] = false :=
  magic_byte_gating.1 (pyStr ("mpc1rKeaMSCuQnJevMViLuq8uWjHwgdjiV")) [0, 5]
    [111, 99, 174, 46, 56, 211, 3, 145, 137, 89, 148, 220, 210, 8, 177, 189,
     61, 74, 177, 69, 211, 189, 87, 202, 30] 111
    (by decide) (by decide) (by decide)

/-! ## Lemmas: bech32 case handling -/

theorem asciiLower_asciiUpper (c : Nat) : asciiLower (asciiUpper c) = asciiLower c := by
  simp only [asciiLower, asciiUpper]
  split_ifs <;> omega

theorem asciiUpper_asciiUpper (c : Nat) : asciiUpper (asciiUpper c) = asciiUpper c := by
  simp only [asciiUpper]
  split_ifs <;> omega

theorem asciiLower_asciiLower (c : Nat) : asciiLower (asciiLower c) = asciiLower c := by
  simp only [asciiLower]
  split_ifs <;> omega

theorem asciiUpper_range (c : Nat) :
    (asciiUpper c < 33 ∨ 126 < asciiUpper c) ↔ (c < 33 ∨ 126 < c) := by
  simp only [asciiUpper]
  split_ifs <;> omega

theorem asciiLower_range (c : Nat) :
    (asciiLower c < 33 ∨ 126 < asciiLower c) ↔ (c < 33 ∨ 126 < c) := by
  simp only [asciiLower]
  split_ifs <;> omega

theorem any_outRange_map_asciiUpper (s : List Nat) :
    (s.map asciiUpper).any (fun x => x < 33 ∨ 126 < x)
      = s.any (fun x => x < 33 ∨ 126 < x) := by
  induction s with
  | nil => rfl
  | cons c t ih =>
    simp only [List.map_cons, List.any_cons, ih]
    congr 1
    exact decide_eq_decide.mpr (asciiUpper_range c)

theorem any_outRange_map_asciiLower (s : List Nat) :
    (s.map asciiLower).any (fun x => x < 33 ∨ 126 < x)
      = s.any (fun x => x < 33 ∨ 126 < x) := by
  induction s with
  | nil => rfl
  | cons c t ih =>
    simp only [List.map_cons, List.any_cons, ih]
    congr 1
    exact decide_eq_decide.mpr (asciiLower_range c)

theorem map_asciiUpper_map_asciiUpper (s : List Nat) :
    (s.map asciiUpper).map asciiUpper = s.map asciiUpper := by
  rw [List.map_map]
  exact List.map_congr_left (fun c _ => asciiUpper_asciiUpper c)

theorem map_asciiLower_map_asciiLower (s : List Nat) :
    (s.map asciiLower).map asciiLower = s.map asciiLower := by
  rw [List.map_map]
  exact List.map_congr_left (fun c _ => asciiLower_asciiLower c)

theorem map_asciiLower_map_asciiUpper (s : List Nat) :
    (s.map asciiUpper).map asciiLower = s.map asciiLower := by
  rw [List.map_map]
  exact List.map_congr_left (fun c _ => asciiLower_asciiUpper c)

theorem asciiUpper_asciiLower (c : Nat) : asciiUpper (asciiLower c) = asciiUpper c := by
  simp only [asciiLower, asciiUpper]
  split_ifs <;> omega

theorem map_asciiUpper_map_asciiLower (s : List Nat) :
    (s.map asciiLower).map asciiUpper = s.map asciiUpper := by
  rw [List.map_map]
  exact List.map_congr_left (fun c _ => asciiUpper_asciiLower c)

theorem map_ne_self_of_mem {f : Nat → Nat} {l : List Nat} {c : Nat}
    (hc : c ∈ l) (hf : f c ≠ c) : l.map f ≠ l := by
  induction l with
  | nil => simp at hc
  | cons a t ih =>
    intro heq
    simp only [List.map_cons, List.cons.injEq] at heq
    rcases List.mem_cons.mp hc with h | h
    · exact hf (h ▸ heq.1)
    · exact ih h heq.2

/-- An all-uppercased and an all-lowercased form of the same string pass or
fail `bech32_decode` identically. -/
theorem bech32_decode_case (s : List Nat) :
    bech32_decode (s.map asciiUpper) = bech32_decode (s.map asciiLower) := by
  unfold bech32_decode
  rw [any_outRange_map_asciiUpper, any_outRange_map_asciiLower,
    map_asciiLower_map_asciiUpper, map_asciiUpper_map_asciiUpper,
    map_asciiLower_map_asciiLower, map_asciiUpper_map_asciiLower]
  by_cases hA : s.any (fun x => x < 33 ∨ 126 < x) = true
  · rw [if_pos (Or.inl hA), if_pos (Or.inl hA)]
  · have hcondU : ¬ ((s.any (fun x => x < 33 ∨ 126 < x)) = true
        ∨ ((s.map asciiLower ≠ s.map asciiUpper) ∧ (s.map asciiUpper ≠ s.map asciiUpper))) := by
      rintro (h | ⟨_, h2⟩)
      · exact hA h
      · exact h2 rfl
    have hcondL : ¬ ((s.any (fun x => x < 33 ∨ 126 < x)) = true
        ∨ ((s.map asciiLower ≠ s.map asciiLower) ∧ (s.map asciiUpper ≠ s.map asciiLower))) := by
      rintro (h | ⟨h1, _⟩)
      · exact hA h
      · exact h1 rfl
    rw [if_neg hcondU, if_neg hcondL]

theorem decode_congr (hrp a b : List Nat) (h : bech32_decode a = bech32_decode b) :
    decode hrp a = decode hrp b := by
  unfold decode
  rw [h]

/-- C7: a bech32 string containing both an uppercase and a lowercase
letter fails validation; and uppercasing or lowercasing a string leads to
the same `decode` result (so the all-upper and all-lower forms of an
address decode identically). -/
theorem bech32_case_rules :
    (∀ hrp s : List Nat,
        (s.any fun c => 65 ≤ c ∧ c ≤ 90) = true →
        (s.any fun c => 97 ≤ c ∧ c ≤ 122) = true →
        validate_bech32 s hrp = some false)
    ∧ (∀ hrp s : List Nat,
        decode hrp (s.map asciiUpper) = decode hrp (s.map asciiLower)) := by
  constructor
  · intro hrp s hU hL
    obtain ⟨cu, hcu, hcuP⟩ := List.any_eq_true.mp hU
    obtain ⟨cl, hcl, hclP⟩ := List.any_eq_true.mp hL
    simp only [decide_eq_true_eq] at hcuP hclP
    have h1 : s.map asciiLower ≠ s :=
      map_ne_self_of_mem hcu (by simp only [asciiLower, if_pos hcuP]; omega)
    have h2 : s.map asciiUpper ≠ s :=
      map_ne_self_of_mem hcl (by simp only [asciiUpper, if_pos hclP]; omega)
    have hdec : bech32_decode s = none := by
      unfold bech32_decode
      rw [if_pos (Or.inr ⟨h1, h2⟩)]
    unfold validate_bech32 decode
    rw [hdec]
    rfl
  · intro hrp s
    exact decode_congr hrp _ _ (bech32_decode_case s)

/-- Witness for `bech32_case_rules`: the mixed-case string `"Ab"` is
rejected. -/
theorem bech32_case_rules_witness :
    validate_bech32 (pyStr ("Ab")) (pyStr ("bc")) = some false :=
  bech32_case_rules.1 (pyStr ("bc")) (pyStr ("Ab")) (by decide) (by decide)

/-! ## Lemmas: convertbits -/

/-- The early-exit loop of `convertbits` equals the up-front bad-value
scan followed by the total loop. -/
theorem cbLoop_eq_total (f t mv ma : Nat) (data : List Nat) :
    ∀ acc bits ret, cbLoop f t mv ma acc bits ret data
      = if data.any (fun v => v >>> f ≠ 0) then none
        else some (cbLoopT f t mv ma acc bits ret data) := by
  induction data with
  | nil => intro acc bits ret; simp [cbLoop, cbLoopT]
  | cons v rest ih =>
    intro acc bits ret
    by_cases hv : v >>> f ≠ 0
    · simp [cbLoop, hv]
    · simp only [cbLoop, cbLoopT, if_neg hv, List.any_cons, ih]
      have hvf : (decide (v >>> f ≠ 0)) = false := by
        simp only [decide_eq_false_iff_not]
        exact hv
      rw [hvf]
      simp

/-- C8: `convertbits` agrees with its specification `convertbitsSpec`
(bad-value scan, regrouping, padding/leftover rules), and it returns
`none` exactly when some input value does not fit in `frombits` bits, or
`pad` is false and the leftover bits after draining full `tobits` groups
are ≥ `frombits` or are non-zero once left-shifted into a `tobits`
group. -/
theorem convertbits_characterization (data : List Nat) (frombits tobits : Nat)
    (pad : Bool) :
    convertbits data frombits tobits pad = convertbitsSpec data frombits tobits pad
    ∧ (convertbits data frombits tobits pad = none ↔
        (∃ v ∈ data, v >>> frombits ≠ 0)
        ∨ (pad = false
            ∧ (frombits ≤ (cbFinal data frombits tobits).2.1
              ∨ ((cbFinal data frombits tobits).1
                  <<< (tobits - (cbFinal data frombits tobits).2.1))
                  &&& ((1 <<< tobits) - 1) ≠ 0))) := by
  have heq : convertbits data frombits tobits pad
      = convertbitsSpec data frombits tobits pad := by
    have hl := cbLoop_eq_total frombits tobits ((1 <<< tobits) - 1)
      ((1 <<< (frombits + tobits - 1)) - 1) data 0 0 []
    by_cases hany : data.any (fun v => v >>> frombits ≠ 0) = true
    · rw [if_pos hany] at hl
      simp only [convertbits, convertbitsSpec, cbFinal, hl, if_pos hany]
    · rw [if_neg hany] at hl
      rcases hcb : cbLoopT frombits tobits ((1 <<< tobits) - 1)
          ((1 <<< (frombits + tobits - 1)) - 1) 0 0 [] data with ⟨acc, bits, ret⟩
      rw [hcb] at hl
      simp only [convertbits, convertbitsSpec, cbFinal, hl, hcb, if_neg hany]
  refine ⟨heq, ?_⟩
  rw [heq]
  by_cases hany : data.any (fun v => v >>> frombits ≠ 0) = true
  · have hex : ∃ v ∈ data, v >>> frombits ≠ 0 := by
      obtain ⟨v, hv, hvp⟩ := List.any_eq_true.mp hany
      exact ⟨v, hv, by simpa using hvp⟩
    simp only [convertbitsSpec, if_pos hany]
    simp [hex]
  · have hnoex : ¬ ∃ v ∈ data, v >>> frombits ≠ 0 := by
      rintro ⟨v, hv, hvp⟩
      exact hany (List.any_eq_true.mpr ⟨v, hv, by simpa using hvp⟩)
    simp only [convertbitsSpec, if_neg hany, cbFinal]
    cases pad with
    | true =>
      constructor
      · intro hcontra
        rw [if_pos (show true = true from rfl)] at hcontra
        exfalso
        revert hcontra
        split <;> simp
      · rintro (h | ⟨hfalse, _⟩)
        · exact absurd h hnoex
        · cases hfalse
    | false =>
      rw [if_neg (show ¬ false = true from by simp)]
      by_cases hC : frombits ≤ (cbLoopT frombits tobits ((1 <<< tobits) - 1)
            ((1 <<< (frombits + tobits - 1)) - 1) 0 0 [] data).2.1
          ∨ ((cbLoopT frombits tobits ((1 <<< tobits) - 1)
              ((1 <<< (frombits + tobits - 1)) - 1) 0 0 [] data).1
              <<< (tobits - (cbLoopT frombits tobits ((1 <<< tobits) - 1)
              ((1 <<< (frombits + tobits - 1)) - 1) 0 0 [] data).2.1))
              &&& ((1 <<< tobits) - 1) ≠ 0
      · rw [if_pos hC]
        constructor
        · intro _
          exact Or.inr ⟨rfl, hC⟩
        · intro _
          rfl
      · rw [if_neg hC]
        constructor
        · intro hcontra
          simp at hcontra
        · rintro (h | ⟨_, hc⟩)
          · exact absurd h hnoex
          · exact absurd hc hC

end BitcoinAddr
